import Mathlib

/-!
Verification of the bolt12-offer-decoder front-end.

The repository's locally owned logic lives in `src/gui.rs`:
* `from_bech32_str` — continuation folding (the `+` convention) followed by
  checksum-free bech32 decoding and HRP validation,
* `Bolt12OfferDecoderApp` / `decode_offer` / `update` — the app state and its
  redraw-cycle transitions.

Strings are embedded as `List Char`.  The external bech32 primitive
(`CheckedHrpstring::new::<NoChecksum>`) is not part of the repository; it is
modelled here from the specification of the transport encoding (separator
convention, 32-character alphabet, 5-bit groups, no checksum).
-/

set_option autoImplicit false

namespace Bolt12

/-- Rust's `char::is_whitespace`: the Unicode `White_Space` property. -/
def rustIsWhitespace (c : Char) : Bool :=
  let n := c.toNat
  (0x09 ≤ n && n ≤ 0x0D) || n == 0x20 || n == 0x85 || n == 0xA0 ||
  n == 0x1680 || (0x2000 ≤ n && n ≤ 0x200A) || n == 0x2028 || n == 0x2029 ||
  n == 0x202F || n == 0x205F || n == 0x3000

/-- Rust's `str::trim_start`: drop leading whitespace. -/
def rustTrimStart (s : List Char) : List Char :=
  s.dropWhile rustIsWhitespace

/-- Rust's `str::trim`: drop leading and trailing whitespace. -/
def rustTrim (s : List Char) : List Char :=
  ((s.dropWhile rustIsWhitespace).reverse.dropWhile rustIsWhitespace).reverse

/-- Rust's `s.split('+')`: the `+`-delimited chunks of `s`, always at least
one chunk (an input without `+` yields the single chunk `[s]`). -/
def splitPlus : List Char → List (List Char)
  | [] => [[]]
  | c :: cs =>
    if c = '+' then
      [] :: splitPlus cs
    else
      match splitPlus cs with
      | [] => [[c]]
      | h :: t => (c :: h) :: t

/-- The per-chunk validation of `from_bech32_str` (gui.rs lines 54-59): after
`trim_start`, the chunk must be non-empty and contain no whitespace. -/
def chunkOk (chunk : List Char) : Bool :=
  let t := rustTrimStart chunk
  !(t.isEmpty || t.any rustIsWhitespace)

/-- The error variants of `Bolt12ParseError` that `from_bech32_str` can
produce.  `Bech32Error` stands for any error propagated from the underlying
bech32 decoder (`Bolt12ParseError::Bech32(_)`). -/
inductive Bolt12ParseError where
  | InvalidContinuation
  | InvalidBech32Hrp
  | Bech32Error
deriving DecidableEq

/-- The continuation-folding step of `from_bech32_str` (gui.rs lines 52-68):
if the input contains a `+` (i.e. `split('+').skip(1).next()` is `Some`),
validate every chunk and then remove every `+` and every whitespace
character; otherwise hand the input through unchanged (borrowed). -/
def foldContinuation (s : List Char) : Except Bolt12ParseError (List Char) :=
  if ((splitPlus s).drop 1).isEmpty then
    Except.ok s
  else if (splitPlus s).all chunkOk then
    Except.ok (s.filter fun c => !(c == '+') && !rustIsWhitespace c)
  else
    Except.error Bolt12ParseError.InvalidContinuation

example : foldContinuation "ab".toList = Except.ok "ab".toList := by rfl
example : foldContinuation "a+ b".toList = Except.ok "ab".toList := by rfl
example : foldContinuation "a+".toList =
    Except.error Bolt12ParseError.InvalidContinuation := by rfl
example : foldContinuation "+a".toList =
    Except.error Bolt12ParseError.InvalidContinuation := by rfl
example : foldContinuation "a+b c".toList =
    Except.error Bolt12ParseError.InvalidContinuation := by rfl
example : foldContinuation "a + b".toList =
    Except.error Bolt12ParseError.InvalidContinuation := by rfl
example : foldContinuation "lno1+ ".toList =
    Except.error Bolt12ParseError.InvalidContinuation := by rfl

/-- The bech32 data-part alphabet (32 characters, 5 bits per character). -/
def CHARSET : List Char := "qpzry9x8gf2tvdw0s3jn54khce6mua7l".toList

/-- The character encoding a 5-bit field element. -/
def feToChar (n : Nat) : Char := CHARSET.getD n '?'

/-- Index of a character in a list, if present. -/
def indexInList (c : Char) : List Char → Option Nat
  | [] => none
  | d :: ds => if c = d then some 0 else (indexInList c ds).map (· + 1)

/-- The 5-bit field element encoded by a data-part character
(case-insensitively). -/
def charToFe (c : Char) : Option Nat := indexInList c.toLower CHARSET

/-- The eight bits of a byte, most significant first. -/
def byteToBits (b : Nat) : List Bool :=
  [b.testBit 7, b.testBit 6, b.testBit 5, b.testBit 4,
   b.testBit 3, b.testBit 2, b.testBit 1, b.testBit 0]

/-- The five bits of a field element, most significant first. -/
def feToBits (n : Nat) : List Bool :=
  [n.testBit 4, n.testBit 3, n.testBit 2, n.testBit 1, n.testBit 0]

/-- The number whose big-endian bits are the given list. -/
def bitsToNat : List Bool → Nat
  | [] => 0
  | b :: l => b.toNat * 2 ^ l.length + bitsToNat l

/-- A byte sequence as a bit stream, most significant bit of each byte
first. -/
def bytesToBits (bs : List Nat) : List Bool := (bs.map byteToBits).flatten

/-- Regroup a bit stream into bytes, dropping the final incomplete group of
fewer than 8 bits (the bech32 5-to-8-bit regrouping drops the padding). -/
def bitsToBytes : List Bool → List Nat
  | b7 :: b6 :: b5 :: b4 :: b3 :: b2 :: b1 :: b0 :: rest =>
    bitsToNat [b7, b6, b5, b4, b3, b2, b1, b0] :: bitsToBytes rest
  | _ => []

/-- Regroup a bit stream into 5-bit field elements (the stream's length is a
multiple of 5 whenever this is used). -/
def bitsToFes : List Bool → List Nat
  | [] => []
  | b4 :: b3 :: b2 :: b1 :: b0 :: rest =>
    bitsToNat [b4, b3, b2, b1, b0] :: bitsToFes rest
  | l => [bitsToNat l]

/-- The byte sequence encoded by a sequence of 5-bit field elements: the
concatenated bits regrouped into bytes, final padding bits dropped. -/
def fesToBytes (fes : List Nat) : List Nat := bitsToBytes (fes.map feToBits).flatten

/-- Zero-pad a bit stream on the right to a multiple of 5 bits. -/
def padBits (l : List Bool) : List Bool :=
  l ++ List.replicate ((5 - l.length % 5) % 5) false

/-- The 5-bit field elements encoding a byte sequence. -/
def bytesToFes (bs : List Nat) : List Nat := bitsToFes (padBits (bytesToBits bs))

/-- Index of the last `'1'` in a string, if any (the bech32 separator is the
last `'1'`). -/
def lastIndexOfOne : List Char → Option Nat
  | [] => none
  | c :: cs =>
    match lastIndexOfOne cs with
    | some i => some (i + 1)
    | none => if c = '1' then some 0 else none

/-- Split a string at its last `'1'` into human-readable part and data part;
`none` when the separator is missing. -/
def splitLastOne (s : List Char) : Option (List Char × List Char) :=
  match lastIndexOfOne s with
  | none => none
  | some i => some (s.take i, s.drop (i + 1))

/-- Structural validity of a human-readable part: non-empty, characters in
the US-ASCII range 33..126. -/
def hrpOk (hrp : List Char) : Bool :=
  !hrp.isEmpty && hrp.all fun c => 33 ≤ c.toNat && c.toNat ≤ 126

/-- Modelled from the spec: the external bech32 primitive
`CheckedHrpstring::new::<NoChecksum>` (not part of this repository).  Per the
spec it extracts the human-readable part and the data part at the bech32
separator, maps each data character through the 32-character alphabet
(case-insensitively) into 5-bit groups, and regroups them into bytes with no
checksum verification; a missing separator, an invalid human-readable part or
an invalid data character is an error. -/
def checkedHrpstring (s : List Char) : Option (List Char × List Nat) :=
  match splitLastOne s with
  | none => none
  | some (hrp, data) =>
    if hrpOk hrp then
      match data.mapM charToFe with
      | some fes => some (hrp, fesToBytes fes)
      | none => none
    else none

/-- The expected human-readable prefix constant (gui.rs line 33). -/
def BECH32_HRP : List Char := "lno".toList

/-- The post-fold part of `from_bech32_str` (gui.rs lines 70-78): decode the
folded string, compare the lower-cased human-readable part against
`BECH32_HRP`, and return the data-part bytes. -/
def validateBech32 (enc : List Char) : Except Bolt12ParseError (List Nat) :=
  match checkedHrpstring enc with
  | none => Except.error Bolt12ParseError.Bech32Error
  | some (hrp, data) =>
    if hrp.map Char.toLower ≠ BECH32_HRP then
      Except.error Bolt12ParseError.InvalidBech32Hrp
    else
      Except.ok data

/-- `from_bech32_str` (gui.rs lines 50-79): fold the continuation convention,
then decode and validate the result. -/
def from_bech32_str (s : List Char) : Except Bolt12ParseError (List Nat) :=
  match foldContinuation s with
  | Except.error e => Except.error e
  | Except.ok enc => validateBech32 enc

/-- Modelled from the spec: the checksum-free bech32 encoding of a byte
sequence with human-readable prefix `"lno"` — prefix, separator, then the
byte stream's bits in 5-bit groups (zero-padded) through the alphabet, no
checksum appended.  This is the spec's round-trip construction; the
repository contains no encoder. -/
def to_bech32 (bs : List Nat) : List Char :=
  BECH32_HRP ++ '1' :: (bytesToFes bs).map feToChar

example : to_bech32 [255] = "lno1lu".toList := by rfl
example : from_bech32_str "lno1lu".toList = Except.ok [255] := by rfl
example : from_bech32_str "LNO1LU".toList = Except.ok [255] := by rfl
example : from_bech32_str "xyz1qqqsllhfyz".toList =
    Except.error Bolt12ParseError.InvalidBech32Hrp := by rfl
example : from_bech32_str "".toList =
    Except.error Bolt12ParseError.Bech32Error := by rfl
example : from_bech32_str " ".toList =
    Except.error Bolt12ParseError.Bech32Error := by rfl
example : from_bech32_str "lno1pq+ps7sjq".toList =
    from_bech32_str "lno1pqps7sjq".toList := by rfl

/-- The app state (gui.rs lines 81-86).  The external `Offer` type is opaque
and is a type parameter; the presentation-only `theme` field is omitted. -/
structure Bolt12OfferDecoderApp (Offer : Type) where
  offer : Option Offer
  input_text : List Char
  error_message : Option (List Char)
deriving DecidableEq

/-- The default input text (gui.rs lines 90-92). -/
def default_input_text : List Char :=
  ("lno1pqps7sjqpgt+yzm3qv4uxzmtsd3jjqer9wd3hy6tsw3+5k7msjzfpy7nz5yqcn+" ++
   "ygrfdej82um5wf5k2uckyypwa3eyt44h6txtxquqh7lz5djge4afgfjn7k4rgrkuag0jsd+" ++
   "5xvxg").toList

/-- `Bolt12OfferDecoderApp::default` (gui.rs lines 88-100). -/
def defaultApp (Offer : Type) : Bolt12OfferDecoderApp Offer :=
  ⟨none, default_input_text, none⟩

/-- `decode_offer` (gui.rs lines 154-173).  The external `Offer::from_str`
and the debug formatting of its error are parameters `from_str` and `fmt`:
trim the input; on empty input clear both fields; otherwise parse the trimmed
input, storing either the offer or the formatted error message. -/
def decode_offer {Offer E : Type} (from_str : List Char → Except E Offer)
    (fmt : E → List Char) (app : Bolt12OfferDecoderApp Offer) :
    Bolt12OfferDecoderApp Offer :=
  let trimmed := rustTrim app.input_text
  if trimmed.isEmpty then
    ⟨none, app.input_text, none⟩
  else
    match from_str trimmed with
    | Except.ok decoder => ⟨some decoder, app.input_text, none⟩
    | Except.error e =>
      ⟨none, app.input_text, some ("Failed to parse offer: ".toList ++ fmt e)⟩

/-- One lowercase hex digit, as in `format!("{:02x}", d)`. -/
def hexDigit (n : Nat) : Char :=
  Char.ofNat (if n < 10 then 48 + n else 87 + n)

/-- The lowercase hex rendering of a byte sequence (gui.rs lines 126-130). -/
def hexOfBytes (bs : List Nat) : List Char :=
  (bs.map fun b => [hexDigit (b / 16), hexDigit (b % 16)]).flatten

/-- The data-part label the redraw cycle shows for an input (gui.rs lines
124-138): the hex of the transport-validated bytes on success, nothing on
failure — the error value of `from_bech32_str` is discarded. -/
def dataPartLabel (s : List Char) : Option (List Char) :=
  match from_bech32_str s with
  | Except.ok data_part => some ("data part: ".toList ++ hexOfBytes data_part)
  | Except.error _ => none

/-- The state- and display-relevant part of one redraw cycle (`update`,
gui.rs lines 103-150): run `decode_offer`, then derive the transport
data-part label from the (unchanged) input text. -/
def update {Offer E : Type} (from_str : List Char → Except E Offer)
    (fmt : E → List Char) (app : Bolt12OfferDecoderApp Offer) :
    Bolt12OfferDecoderApp Offer × Option (List Char) :=
  let app2 := decode_offer from_str fmt app
  (app2, dataPartLabel app2.input_text)

/-- States reachable from the default state by input-text edits and
`decode_offer` calls. -/
inductive Reachable {Offer E : Type} (from_str : List Char → Except E Offer)
    (fmt : E → List Char) : Bolt12OfferDecoderApp Offer → Prop where
  | dflt : Reachable from_str fmt (defaultApp Offer)
  | edit (s : List Char) (app : Bolt12OfferDecoderApp Offer) :
      Reachable from_str fmt app →
      Reachable from_str fmt ⟨app.offer, s, app.error_message⟩
  | decode (app : Bolt12OfferDecoderApp Offer) :
      Reachable from_str fmt app →
      Reachable from_str fmt (decode_offer from_str fmt app)

example :
    decode_offer (fun s => Except.error s) (fun s => s)
      ((⟨some (), " x ".toList, none⟩ : Bolt12OfferDecoderApp Unit)) =
      ⟨none, " x ".toList, some "Failed to parse offer: x".toList⟩ := by rfl

example :
    decode_offer (fun s => Except.error s) (fun s => s)
      ((⟨some (), "  ".toList, some "old".toList⟩ : Bolt12OfferDecoderApp Unit)) =
      ⟨none, "  ".toList, none⟩ := by rfl

/-! ### Lemmas about `splitPlus` and `foldContinuation` -/

theorem splitPlus_ne_nil (s : List Char) : splitPlus s ≠ [] := by
  cases s with
  | nil => simp [splitPlus]
  | cons c cs =>
    by_cases h : c = '+'
    · simp [splitPlus, h]
    · simp only [splitPlus, if_neg h]
      cases splitPlus cs <;> simp

theorem splitPlus_of_not_mem {s : List Char} (h : '+' ∉ s) :
    splitPlus s = [s] := by
  induction s with
  | nil => rfl
  | cons c cs ih =>
    have hc : ¬c = '+' := fun e => h (e ▸ List.mem_cons_self c cs)
    have hcs : '+' ∉ cs := fun m => h (List.mem_cons_of_mem c m)
    simp only [splitPlus, if_neg hc, ih hcs]

theorem two_le_splitPlus_of_mem {s : List Char} (h : '+' ∈ s) :
    2 ≤ (splitPlus s).length := by
  induction s with
  | nil => cases h
  | cons c cs ih =>
    by_cases hc : c = '+'
    · have h1 : 1 ≤ (splitPlus cs).length := by
        have := splitPlus_ne_nil cs
        cases he : splitPlus cs with
        | nil => exact absurd he this
        | cons a l => simp
      simp only [splitPlus, if_pos hc, List.length_cons]
      omega
    · have hm : '+' ∈ cs := by
        cases List.mem_cons.mp h with
        | inl e => exact absurd e.symm hc
        | inr m => exact m
      have h2 := ih hm
      simp only [splitPlus, if_neg hc]
      cases he : splitPlus cs with
      | nil => exact absurd he (splitPlus_ne_nil cs)
      | cons a l => rw [he] at h2; simpa using h2

theorem foldContinuation_of_not_mem {s : List Char} (h : '+' ∉ s) :
    foldContinuation s = Except.ok s := by
  simp [foldContinuation, splitPlus_of_not_mem h]

theorem foldContinuation_of_mem_valid {s : List Char} (h1 : '+' ∈ s)
    (h2 : (splitPlus s).all chunkOk = true) :
    foldContinuation s =
      Except.ok (s.filter fun c => !(c == '+') && !rustIsWhitespace c) := by
  have hne : ¬((splitPlus s).drop 1).isEmpty = true := by
    rw [List.isEmpty_iff, List.drop_eq_nil_iff]
    have := two_le_splitPlus_of_mem h1
    omega
  simp only [foldContinuation, if_neg hne, if_pos h2]

theorem foldContinuation_of_mem_invalid {s : List Char} (h1 : '+' ∈ s)
    (h2 : (splitPlus s).all chunkOk = false) :
    foldContinuation s = Except.error Bolt12ParseError.InvalidContinuation := by
  have hne : ¬((splitPlus s).drop 1).isEmpty = true := by
    rw [List.isEmpty_iff, List.drop_eq_nil_iff]
    have := two_le_splitPlus_of_mem h1
    omega
  have h2' : ¬(splitPlus s).all chunkOk = true := by simp [h2]
  simp only [foldContinuation, if_neg hne, if_neg h2']

theorem plus_not_mem_filter (s : List Char) :
    '+' ∉ s.filter fun c => !(c == '+') && !rustIsWhitespace c := by
  intro hm
  have := (List.mem_filter.mp hm).2
  simp at this

theorem splitPlus_append_plus (s : List Char) :
    splitPlus (s ++ ['+']) = splitPlus s ++ [[]] := by
  induction s with
  | nil => rfl
  | cons c cs ih =>
    by_cases hc : c = '+'
    · simp only [List.cons_append, splitPlus, if_pos hc, List.append_eq, ih]
    · simp only [List.cons_append, splitPlus, if_neg hc, List.append_eq, ih]
      cases he : splitPlus cs with
      | nil => exact absurd he (splitPlus_ne_nil cs)
      | cons a l => rfl

/-! ### C1, C2, C7, C9 -/

/-- C1: on an input containing at least one `+` whose chunks all pass
validation, the folding step of `from_bech32_str` yields exactly the input
with every `+` and every whitespace character deleted (order preserved), and
that folded string is what is handed to the bech32 decoder. -/
theorem c1_fold_is_marker_and_whitespace_removal (s : List Char)
    (h1 : '+' ∈ s) (h2 : ∀ chunk ∈ splitPlus s, chunkOk chunk = true) :
    foldContinuation s =
      Except.ok (s.filter fun c => !(c == '+') && !rustIsWhitespace c) ∧
    from_bech32_str s =
      validateBech32 (s.filter fun c => !(c == '+') && !rustIsWhitespace c) := by
  have hall : (splitPlus s).all chunkOk = true := List.all_eq_true.mpr h2
  refine ⟨foldContinuation_of_mem_valid h1 hall, ?_⟩
  unfold from_bech32_str
  rw [foldContinuation_of_mem_valid h1 hall]

theorem c1_witness :
    foldContinuation "lno1pq+ps7sjq".toList =
      Except.ok (("lno1pq+ps7sjq".toList).filter
        fun c => !(c == '+') && !rustIsWhitespace c) ∧
    from_bech32_str "lno1pq+ps7sjq".toList =
      validateBech32 (("lno1pq+ps7sjq".toList).filter
        fun c => !(c == '+') && !rustIsWhitespace c) :=
  c1_fold_is_marker_and_whitespace_removal "lno1pq+ps7sjq".toList
    (by decide) (by decide)

/-- C2: on an input containing at least one `+` in which some chunk fails the
validation (empty after left-trim, or still containing whitespace),
`from_bech32_str` returns `InvalidContinuation` and no decoded output; in
particular a leading or trailing `+` fails this way, because the empty
leading/trailing chunk is invalid. -/
theorem c2_invalid_chunk_fails (s : List Char) :
    ('+' ∈ s → (∃ chunk ∈ splitPlus s, chunkOk chunk = false) →
      from_bech32_str s = Except.error Bolt12ParseError.InvalidContinuation) ∧
    from_bech32_str ('+' :: s) =
      Except.error Bolt12ParseError.InvalidContinuation ∧
    from_bech32_str (s ++ ['+']) =
      Except.error Bolt12ParseError.InvalidContinuation := by
  have main : ∀ t : List Char, '+' ∈ t →
      (∃ chunk ∈ splitPlus t, chunkOk chunk = false) →
      from_bech32_str t = Except.error Bolt12ParseError.InvalidContinuation := by
    intro t h1 h2
    have hall : (splitPlus t).all chunkOk = false := by
      rw [List.all_eq_false]
      obtain ⟨chunk, hm, hc⟩ := h2
      exact ⟨chunk, hm, by simp [hc]⟩
    unfold from_bech32_str
    rw [foldContinuation_of_mem_invalid h1 hall]
  refine ⟨main s, ?_, ?_⟩
  · refine main ('+' :: s) (List.mem_cons_self '+' s) ⟨[], ?_, by rfl⟩
    simp [splitPlus]
  · refine main (s ++ ['+']) (by simp) ⟨[], ?_, by rfl⟩
    rw [splitPlus_append_plus]
    simp

theorem c2_witness :
    from_bech32_str "lno1x+ y z".toList =
      Except.error Bolt12ParseError.InvalidContinuation ∧
    from_bech32_str ('+' :: "abc".toList) =
      Except.error Bolt12ParseError.InvalidContinuation ∧
    from_bech32_str ("abc".toList ++ ['+']) =
      Except.error Bolt12ParseError.InvalidContinuation :=
  ⟨(c2_invalid_chunk_fails "lno1x+ y z".toList).1 (by decide)
      ⟨" y z".toList, by decide, by decide⟩,
    (c2_invalid_chunk_fails "abc".toList).2.1,
    (c2_invalid_chunk_fails "abc".toList).2.2⟩

/-- C7: on an input containing no `+`, the folding step returns the input
completely unchanged (whitespace included), and that unchanged input is what
is passed to the bech32 decoder. -/
theorem c7_no_marker_input_unchanged (s : List Char) (h : '+' ∉ s) :
    foldContinuation s = Except.ok s ∧
    from_bech32_str s = validateBech32 s := by
  refine ⟨foldContinuation_of_not_mem h, ?_⟩
  unfold from_bech32_str
  rw [foldContinuation_of_not_mem h]

theorem c7_witness :
    foldContinuation "lno1 q rs".toList = Except.ok "lno1 q rs".toList ∧
    from_bech32_str "lno1 q rs".toList =
      validateBech32 "lno1 q rs".toList :=
  c7_no_marker_input_unchanged "lno1 q rs".toList (by decide)

/-- C9: the continuation fold is idempotent on its successful outputs —
whenever it succeeds, re-running it on the produced output succeeds and
returns that output unchanged. -/
theorem c9_fold_idempotent (s t : List Char)
    (h : foldContinuation s = Except.ok t) :
    foldContinuation t = Except.ok t := by
  by_cases hp : '+' ∈ s
  · by_cases hall : (splitPlus s).all chunkOk = true
    · rw [foldContinuation_of_mem_valid hp hall] at h
      have ht : t = s.filter fun c => !(c == '+') && !rustIsWhitespace c :=
        (Except.ok.inj h).symm
      exact ht ▸ foldContinuation_of_not_mem (plus_not_mem_filter s)
    · rw [foldContinuation_of_mem_invalid hp (Bool.eq_false_iff.mpr hall)] at h
      cases h
  · rw [foldContinuation_of_not_mem hp] at h
    have ht : t = s := (Except.ok.inj h).symm
    exact ht ▸ foldContinuation_of_not_mem hp

theorem c9_witness :
    foldContinuation "lno1pqps7sjq".toList =
      Except.ok "lno1pqps7sjq".toList :=
  c9_fold_idempotent "lno1pq+ps7sjq".toList "lno1pqps7sjq".toList (by rfl)

/-! ### Lemmas about whitespace-only input and the app state -/

theorem rustTrim_eq_nil {s : List Char} (h : s.all rustIsWhitespace = true) :
    rustTrim s = [] := by
  unfold rustTrim
  have h1 : s.dropWhile rustIsWhitespace = [] :=
    List.dropWhile_eq_nil_iff.mpr fun x hx => List.all_eq_true.mp h x hx
  rw [h1]
  rfl

theorem lastIndexOfOne_eq_none {s : List Char} (h : '1' ∉ s) :
    lastIndexOfOne s = none := by
  induction s with
  | nil => rfl
  | cons c cs ih =>
    have hc : ¬c = '1' := fun e => h (e ▸ List.mem_cons_self c cs)
    have hcs : '1' ∉ cs := fun m => h (List.mem_cons_of_mem c m)
    simp [lastIndexOfOne, ih hcs, hc]

theorem from_bech32_str_eq_validate {s enc : List Char}
    (h : foldContinuation s = Except.ok enc) :
    from_bech32_str s = validateBech32 enc := by
  unfold from_bech32_str
  rw [h]

theorem from_bech32_str_of_all_whitespace {s : List Char}
    (h : s.all rustIsWhitespace = true) :
    from_bech32_str s = Except.error Bolt12ParseError.Bech32Error := by
  have hp : '+' ∉ s := fun m =>
    absurd (List.all_eq_true.mp h _ m) (by decide)
  have h1 : '1' ∉ s := fun m =>
    absurd (List.all_eq_true.mp h _ m) (by decide)
  have hc : checkedHrpstring s = none := by
    unfold checkedHrpstring splitLastOne
    rw [lastIndexOfOne_eq_none h1]
  rw [from_bech32_str_eq_validate (foldContinuation_of_not_mem hp)]
  unfold validateBech32
  rw [hc]

theorem decode_offer_input_text {Offer E : Type}
    (from_str : List Char → Except E Offer) (fmt : E → List Char)
    (app : Bolt12OfferDecoderApp Offer) :
    (decode_offer from_str fmt app).input_text = app.input_text := by
  by_cases he : (rustTrim app.input_text).isEmpty = true
  · simp [decode_offer, he]
  · cases hfs : from_str (rustTrim app.input_text) with
    | ok o => simp [decode_offer, he, hfs]
    | error e => simp [decode_offer, he, hfs]

/-! ### C3, C4, C5, C6, C10 -/

/-- C3: when the folded input decodes as a well-formed checksum-free bech32
string, `from_bech32_str` compares the extracted human-readable prefix
lower-cased against `BECH32_HRP` (`"lno"`), fails with `InvalidBech32Hrp`
exactly when the lower-cased prefix differs, and on a match returns the
decoded data-part bytes. -/
theorem c3_hrp_checked_case_insensitively (s enc hrp : List Char)
    (data : List Nat) (h1 : foldContinuation s = Except.ok enc)
    (h2 : checkedHrpstring enc = some (hrp, data)) :
    (from_bech32_str s = Except.error Bolt12ParseError.InvalidBech32Hrp ↔
      hrp.map Char.toLower ≠ BECH32_HRP) ∧
    (hrp.map Char.toLower = BECH32_HRP → from_bech32_str s = Except.ok data) := by
  rw [from_bech32_str_eq_validate h1]
  unfold validateBech32
  rw [h2]
  dsimp only
  split_ifs with hne
  · exact ⟨by simp [hne], fun h => absurd h hne⟩
  · exact ⟨by simp [not_not.mp hne], fun _ => rfl⟩

theorem c3_witness :
    (from_bech32_str "LNO1LU".toList =
        Except.error Bolt12ParseError.InvalidBech32Hrp ↔
      ("LNO".toList).map Char.toLower ≠ BECH32_HRP) ∧
    (("LNO".toList).map Char.toLower = BECH32_HRP →
      from_bech32_str "LNO1LU".toList = Except.ok [255]) :=
  c3_hrp_checked_case_insensitively "LNO1LU".toList "LNO1LU".toList
    "LNO".toList [255] (by rfl) (by rfl)

/-- C4: in every state reachable from the default state by input-text edits
and `decode_offer` calls, `offer` and `error_message` are never both `some`:
the state is Empty, Error-only or Decoded-only. -/
theorem c4_offer_and_error_mutually_exclusive {Offer E : Type}
    (from_str : List Char → Except E Offer) (fmt : E → List Char)
    (app : Bolt12OfferDecoderApp Offer) (h : Reachable from_str fmt app) :
    app.offer = none ∨ app.error_message = none := by
  induction h with
  | dflt => exact Or.inl rfl
  | edit s app _ ih => simpa using ih
  | decode app _ _ =>
    by_cases he : (rustTrim app.input_text).isEmpty = true
    · exact Or.inl (by simp [decode_offer, he])
    · cases hfs : from_str (rustTrim app.input_text) with
      | ok o => exact Or.inr (by simp [decode_offer, he, hfs])
      | error e => exact Or.inl (by simp [decode_offer, he, hfs])

theorem c4_witness :
    (defaultApp Unit).offer = none ∨ (defaultApp Unit).error_message = none :=
  c4_offer_and_error_mutually_exclusive
    (fun _ => (Except.error () : Except Unit Unit)) (fun _ => [])
    (defaultApp Unit) Reachable.dflt

theorem c5_counterexample :
    (" ".toList).all rustIsWhitespace = true ∧
    from_bech32_str " ".toList = Except.error Bolt12ParseError.Bech32Error :=
  ⟨by decide, by rfl⟩

/-- C5 (amended): on empty or whitespace-only raw input, `decode_offer` sets
both `offer` and `error_message` to `none` (the neutral state); the validator
path, however, returns a bech32 error value for such input — that error is
discarded by the redraw cycle, so no error is surfaced from either path. -/
theorem c5_amended_neutral_state {Offer E : Type}
    (from_str : List Char → Except E Offer) (fmt : E → List Char)
    (app : Bolt12OfferDecoderApp Offer)
    (h : app.input_text.all rustIsWhitespace = true) :
    (decode_offer from_str fmt app).offer = none ∧
    (decode_offer from_str fmt app).error_message = none ∧
    from_bech32_str app.input_text = Except.error Bolt12ParseError.Bech32Error ∧
    (update from_str fmt app).2 = none := by
  have he : (rustTrim app.input_text).isEmpty = true := by
    simp [rustTrim_eq_nil h]
  have hv := from_bech32_str_of_all_whitespace h
  refine ⟨by simp [decode_offer, he], by simp [decode_offer, he], hv, ?_⟩
  show dataPartLabel (decode_offer from_str fmt app).input_text = none
  rw [decode_offer_input_text]
  unfold dataPartLabel
  rw [hv]

theorem c5_amended_witness :
    (decode_offer (fun _ => (Except.error () : Except Unit Unit)) (fun _ => [])
        ⟨some (), " ".toList, some "old".toList⟩).offer = none ∧
    (decode_offer (fun _ => (Except.error () : Except Unit Unit)) (fun _ => [])
        ⟨some (), " ".toList, some "old".toList⟩).error_message = none ∧
    from_bech32_str " ".toList = Except.error Bolt12ParseError.Bech32Error ∧
    (update (fun _ => (Except.error () : Except Unit Unit)) (fun _ => [])
        ⟨some (), " ".toList, some "old".toList⟩).2 = none :=
  c5_amended_neutral_state (fun _ => (Except.error () : Except Unit Unit))
    (fun _ => []) ⟨some (), " ".toList, some "old".toList⟩ (by decide)

theorem c6_counterexample :
    decode_offer (fun s => (Except.error s : Except (List Char) Unit))
        (fun s => s) ⟨none, " x".toList, none⟩ =
      ⟨none, " x".toList, some "Failed to parse offer: x".toList⟩ ∧
    "x".toList ≠ " x".toList :=
  ⟨by rfl, by decide⟩

/-- C6 (amended): for every raw input whose trim is non-empty, `decode_offer`
passes the whitespace-trimmed input text — not the untrimmed original and not
the folded output — to the external `Offer::from_str`, which performs its own
continuation handling independently.  (Shown with a recording parser: the
stored message exhibits the exact argument passed.) -/
theorem c6_amended_trimmed_input_passed (Offer : Type)
    (app : Bolt12OfferDecoderApp Offer) (h : rustTrim app.input_text ≠ []) :
    (decode_offer (fun s => (Except.error s : Except (List Char) Offer))
        (fun s => s) app).error_message =
      some ("Failed to parse offer: ".toList ++ rustTrim app.input_text) := by
  have he : ¬(rustTrim app.input_text).isEmpty = true := by
    simpa [List.isEmpty_iff] using h
  simp [decode_offer, he]

theorem c6_amended_witness :
    (decode_offer (fun s => (Except.error s : Except (List Char) Unit))
        (fun s => s) ⟨none, " x".toList, none⟩).error_message =
      some ("Failed to parse offer: ".toList ++ rustTrim " x".toList) :=
  c6_amended_trimmed_input_passed Unit ⟨none, " x".toList, none⟩ (by decide)

/-- C10: after a redraw cycle the `offer` and `error_message` fields equal
exactly what `decode_offer` produced from the (trimmed) input text — the
result of `from_bech32_str` never influences them; when transport validation
fails, its error value is discarded: the data-part label is simply absent and
no error is recorded in the app state. -/
theorem c10_state_solely_from_decode_offer {Offer E : Type}
    (from_str : List Char → Except E Offer) (fmt : E → List Char)
    (app : Bolt12OfferDecoderApp Offer) :
    (update from_str fmt app).1 = decode_offer from_str fmt app ∧
    (∀ e, from_bech32_str app.input_text = Except.error e →
      (update from_str fmt app).2 = none) := by
  refine ⟨rfl, fun e he => ?_⟩
  show dataPartLabel (decode_offer from_str fmt app).input_text = none
  rw [decode_offer_input_text]
  unfold dataPartLabel
  rw [he]

theorem c10_witness :
    (update (fun _ => (Except.error () : Except Unit Unit)) (fun _ => [])
        ⟨none, "x".toList, none⟩).1 =
      decode_offer (fun _ => (Except.error () : Except Unit Unit)) (fun _ => [])
        ⟨none, "x".toList, none⟩ ∧
    (update (fun _ => (Except.error () : Except Unit Unit)) (fun _ => [])
        ⟨none, "x".toList, none⟩).2 = none :=
  ⟨(c10_state_solely_from_decode_offer
      (fun _ => (Except.error () : Except Unit Unit)) (fun _ => [])
      ⟨none, "x".toList, none⟩).1,
   (c10_state_solely_from_decode_offer
      (fun _ => (Except.error () : Except Unit Unit)) (fun _ => [])
      ⟨none, "x".toList, none⟩).2 Bolt12ParseError.Bech32Error (by rfl)⟩

/-! ### Bit-level lemmas for the bech32 round trip (C8) -/

theorem bitsToNat_lt (l : List Bool) : bitsToNat l < 2 ^ l.length := by
  induction l with
  | nil => simp [bitsToNat]
  | cons b l ih =>
    have hb : b.toNat ≤ 1 := Bool.toNat_le b
    simp only [bitsToNat, List.length_cons, pow_succ]
    nlinarith

theorem feToBits_bitsToNat (a b c d e : Bool) :
    feToBits (bitsToNat [a, b, c, d, e]) = [a, b, c, d, e] := by
  cases a <;> cases b <;> cases c <;> cases d <;> cases e <;> decide

set_option maxRecDepth 4000 in
theorem bitsToNat_byteToBits {b : Nat} (h : b < 256) :
    bitsToNat (byteToBits b) = b := by
  have : ∀ n < 256, bitsToNat (byteToBits n) = n := by decide
  exact this b h

theorem charToFe_feToChar {n : Nat} (h : n < 32) :
    charToFe (feToChar n) = some n := by
  have : ∀ m < 32, charToFe (feToChar m) = some m := by decide
  exact this n h

theorem feToChar_ne {n : Nat} : feToChar n ≠ '+' ∧ feToChar n ≠ '1' := by
  by_cases h : n < 32
  · have : ∀ m < 32, feToChar m ≠ '+' ∧ feToChar m ≠ '1' := by decide
    exact this n h
  · have hd : feToChar n = '?' := by
      unfold feToChar
      exact List.getD_eq_default _ _ (by simp [CHARSET]; omega)
    rw [hd]
    exact ⟨by decide, by decide⟩

theorem bitsToFes_lt : ∀ l : List Bool, ∀ x ∈ bitsToFes l, x < 32
  | [] => by simp [bitsToFes]
  | [a] => by
    intro x hx
    rw [show bitsToFes [a] = [bitsToNat [a]] from rfl] at hx
    rcases List.mem_singleton.mp hx with rfl
    exact lt_of_lt_of_le (bitsToNat_lt [a]) (by norm_num)
  | [a, b] => by
    intro x hx
    rw [show bitsToFes [a, b] = [bitsToNat [a, b]] from rfl] at hx
    rcases List.mem_singleton.mp hx with rfl
    exact lt_of_lt_of_le (bitsToNat_lt [a, b]) (by norm_num)
  | [a, b, c] => by
    intro x hx
    rw [show bitsToFes [a, b, c] = [bitsToNat [a, b, c]] from rfl] at hx
    rcases List.mem_singleton.mp hx with rfl
    exact lt_of_lt_of_le (bitsToNat_lt [a, b, c]) (by norm_num)
  | [a, b, c, d] => by
    intro x hx
    rw [show bitsToFes [a, b, c, d] = [bitsToNat [a, b, c, d]] from rfl] at hx
    rcases List.mem_singleton.mp hx with rfl
    exact lt_of_lt_of_le (bitsToNat_lt [a, b, c, d]) (by norm_num)
  | b4 :: b3 :: b2 :: b1 :: b0 :: rest => by
    intro x hx
    rw [show bitsToFes (b4 :: b3 :: b2 :: b1 :: b0 :: rest) =
        bitsToNat [b4, b3, b2, b1, b0] :: bitsToFes rest from rfl] at hx
    rcases List.mem_cons.mp hx with h | h
    · exact h ▸ bitsToNat_lt [b4, b3, b2, b1, b0]
    · exact bitsToFes_lt rest x h

theorem flatten_feToBits_bitsToFes :
    ∀ l : List Bool, l.length % 5 = 0 →
      ((bitsToFes l).map feToBits).flatten = l
  | [] => fun _ => rfl
  | [a] => fun h => by simp at h
  | [a, b] => fun h => by simp at h
  | [a, b, c] => fun h => by simp at h
  | [a, b, c, d] => fun h => by simp at h
  | b4 :: b3 :: b2 :: b1 :: b0 :: rest => fun h => by
    have hr : rest.length % 5 = 0 := by
      simp only [List.length_cons] at h
      omega
    rw [show bitsToFes (b4 :: b3 :: b2 :: b1 :: b0 :: rest) =
        bitsToNat [b4, b3, b2, b1, b0] :: bitsToFes rest from rfl]
    rw [List.map_cons, List.flatten_cons, feToBits_bitsToNat,
      flatten_feToBits_bitsToFes rest hr]
    rfl

theorem bitsToBytes_byte_append (b : Nat) (rest : List Bool) :
    bitsToBytes (byteToBits b ++ rest) =
      bitsToNat (byteToBits b) :: bitsToBytes rest := rfl

theorem bitsToBytes_short : ∀ l : List Bool, l.length < 8 → bitsToBytes l = []
  | [], _ => rfl
  | [_], _ => rfl
  | [_, _], _ => rfl
  | [_, _, _], _ => rfl
  | [_, _, _, _], _ => rfl
  | [_, _, _, _, _], _ => rfl
  | [_, _, _, _, _, _], _ => rfl
  | [_, _, _, _, _, _, _], _ => rfl
  | _ :: _ :: _ :: _ :: _ :: _ :: _ :: _ :: _, hl => absurd hl (by simp)

theorem bitsToBytes_bytesToBits_append :
    ∀ bs : List Nat, (∀ b ∈ bs, b < 256) →
      ∀ pad : List Bool, pad.length < 8 →
        bitsToBytes (bytesToBits bs ++ pad) = bs
  | [] => fun _ pad hp => by
    rw [show bytesToBits [] = [] from rfl, List.nil_append]
    exact bitsToBytes_short pad hp
  | b :: bs => fun hb pad hp => by
    have hcons : bytesToBits (b :: bs) = byteToBits b ++ bytesToBits bs := by
      simp [bytesToBits]
    rw [hcons, List.append_assoc, bitsToBytes_byte_append,
      bitsToNat_byteToBits (hb b (List.mem_cons_self b bs)),
      bitsToBytes_bytesToBits_append bs
        (fun x hx => hb x (List.mem_cons_of_mem b hx)) pad hp]

theorem padBits_length_mod (l : List Bool) : (padBits l).length % 5 = 0 := by
  simp only [padBits, List.length_append, List.length_replicate]
  omega

theorem fesToBytes_bytesToFes (bs : List Nat) (hb : ∀ b ∈ bs, b < 256) :
    fesToBytes (bytesToFes bs) = bs := by
  unfold fesToBytes bytesToFes
  rw [flatten_feToBits_bitsToFes _ (padBits_length_mod _)]
  unfold padBits
  exact bitsToBytes_bytesToBits_append bs hb _
    (by simp only [List.length_replicate]; omega)

theorem plus_not_mem_to_bech32 (bs : List Nat) : '+' ∉ to_bech32 bs := by
  intro hm
  unfold to_bech32 at hm
  rcases List.mem_append.mp hm with h | h
  · revert h; decide
  · rcases List.mem_cons.mp h with h | h
    · exact absurd h (by decide)
    · obtain ⟨n, _, hn⟩ := List.mem_map.mp h
      exact feToChar_ne.1 hn

theorem one_not_mem_map_feToChar (fes : List Nat) :
    '1' ∉ fes.map feToChar := by
  intro hm
  obtain ⟨n, _, hn⟩ := List.mem_map.mp hm
  exact feToChar_ne.2 hn

theorem lastIndexOfOne_hrp_data (h d : List Char) (h1 : '1' ∉ h)
    (hd : '1' ∉ d) : lastIndexOfOne (h ++ '1' :: d) = some h.length := by
  induction h with
  | nil =>
    show lastIndexOfOne ('1' :: d) = some 0
    unfold lastIndexOfOne
    rw [lastIndexOfOne_eq_none hd]
    simp
  | cons c cs ih =>
    have hc : ¬c = '1' := fun e => h1 (e ▸ List.mem_cons_self c cs)
    have hcs : '1' ∉ cs := fun m => h1 (List.mem_cons_of_mem c m)
    show lastIndexOfOne (c :: (cs ++ '1' :: d)) = some (cs.length + 1)
    unfold lastIndexOfOne
    rw [ih hcs]

theorem splitLastOne_hrp_data (h d : List Char) (h1 : '1' ∉ h)
    (hd : '1' ∉ d) : splitLastOne (h ++ '1' :: d) = some (h, d) := by
  unfold splitLastOne
  rw [lastIndexOfOne_hrp_data h d h1 hd]
  dsimp only
  have ht : (h ++ '1' :: d).take h.length = h := List.take_left h ('1' :: d)
  have hdrop : (h ++ '1' :: d).drop (h.length + 1) = d := by
    have : h ++ '1' :: d = (h ++ ['1']) ++ d := by simp
    rw [this]
    exact List.drop_left' (by simp)
  rw [ht, hdrop]

theorem mapM_charToFe_map_feToChar :
    ∀ fes : List Nat, (∀ n ∈ fes, n < 32) →
      (fes.map feToChar).mapM charToFe = some fes
  | [] => fun _ => rfl
  | n :: fes => fun h => by
    rw [List.map_cons, List.mapM_cons,
      charToFe_feToChar (h n (List.mem_cons_self n fes)),
      mapM_charToFe_map_feToChar fes
        (fun x hx => h x (List.mem_cons_of_mem n hx))]
    rfl

/-! ### C8 -/

/-- C8: encoding any byte sequence as a checksum-free bech32 string with
human-readable prefix `"lno"` and decoding it back through
`from_bech32_str` succeeds and returns the original bytes exactly. -/
theorem c8_encode_decode_roundtrip (bs : List Nat)
    (hb : ∀ b ∈ bs, b < 256) :
    from_bech32_str (to_bech32 bs) = Except.ok bs := by
  rw [from_bech32_str_eq_validate
    (foldContinuation_of_not_mem (plus_not_mem_to_bech32 bs))]
  have hsplit : checkedHrpstring (to_bech32 bs) =
      some ("lno".toList, bs) := by
    unfold checkedHrpstring to_bech32
    rw [show BECH32_HRP ++ '1' :: (bytesToFes bs).map feToChar =
        "lno".toList ++ '1' :: (bytesToFes bs).map feToChar from rfl]
    rw [splitLastOne_hrp_data _ _ (by decide)
      (one_not_mem_map_feToChar (bytesToFes bs))]
    dsimp only
    rw [if_pos (by decide : hrpOk "lno".toList = true)]
    rw [mapM_charToFe_map_feToChar (bytesToFes bs)
      (bitsToFes_lt (padBits (bytesToBits bs)))]
    dsimp only
    rw [fesToBytes_bytesToFes bs hb]
  unfold validateBech32
  rw [hsplit]
  dsimp only
  rw [if_neg (by decide :
    ¬("lno".toList.map Char.toLower ≠ BECH32_HRP))]

theorem c8_witness :
    ((([90, 0, 255, 33] : List Nat).all fun b => decide (b < 256)) = true) ∧
    from_bech32_str (to_bech32 [90, 0, 255, 33]) =
      Except.ok [90, 0, 255, 33] :=
  ⟨by decide, c8_encode_decode_roundtrip [90, 0, 255, 33] (by decide)⟩

end Bolt12
